import Mathlib

/-!
Verification of the block-cache and memcached-batching specification of this
repository.

The bounded, reference-counted block cache (claims about `Put`, `PutMany`,
`Get`, `Release` and the eviction engine) ships only its test file
(`pkg/storage/stores/shipper/bloomshipper/blockscache_test.go`) in the
sampled sources; the production implementation is absent.  Its operations are
therefore modelled from the specification text (sections 3, 4 and 7 of the
design document), with the error-message strings taken from the assertions of
the test file.  The memcached batching façade (`fetch`, `fetchKeysBatched`)
is embedded directly from its Go source.

Time is modelled as a `Nat` of milliseconds supplied explicitly to each
operation; a context is modelled by the one bit the cache inspects, whether
it is already cancelled.
-/

namespace BlocksCache

/-- Modelled from the spec: recognized configuration options of the cache
(section 6): TTL (max idle time), SoftLimit (bytes threshold triggering
proactive eviction), HardLimit (bytes threshold rejecting new admissions).
`PurgeInterval` only schedules the background sweep and is not part of the
state-transition model; sweeps are explicit operations. -/
structure Config where
  ttl : Nat
  softLimit : Int
  hardLimit : Int
  deriving DecidableEq

/-- Modelled from the spec: the metadata record for one cached item
(section 3): key, size of the backing value, last-access timestamp and
reference count.  The opaque resource payload carries no further observable
structure and is omitted. -/
structure Entry where
  key : String
  size : Int
  lastAccess : Nat
  refCount : Int
  deriving DecidableEq

/-- Modelled from the spec: the shared cache state (sections 2 and 3): the
LRU-ordered entry list (head is the front, the most-recently-used end), the
Index key set, and the size accountant `currentBytes`. -/
structure Cache where
  cfg : Config
  lru : List Entry
  entries : List String
  currSizeBytes : Int
  deriving DecidableEq

/-- Modelled from the spec: the admission-failure taxonomy of section 7:
ContextCanceled, DuplicateKey, CapacityExceeded. -/
inductive PutErr where
  | contextCanceled
  | alreadyExists (key : String)
  | tooBig (key : String)
  deriving DecidableEq

/-- The message of one failure, `"<reason>: <key>"`; the strings are the ones
the test file asserts. -/
def PutErr.render : PutErr → String
  | .contextCanceled => "context canceled"
  | .alreadyExists k => "entry already exists: " ++ k
  | .tooBig k => "entry exceeds hard limit: " ++ k

/-- Modelled from the spec: the aggregate error of `PutMany` (section 7):
`none` when no admission failed, the single message for one failure, and
count plus semicolon-joined individual descriptions for several. -/
def renderErrors : List PutErr → Option String
  | [] => none
  | [e] => some e.render
  | es => some (toString es.length ++ " errors: " ++
      String.intercalate "; " (es.map PutErr.render))

/-- Modelled from the spec: the TTL pass of the eviction engine
(section 4.3): every entry whose idle time `now - LastAccess` exceeds the TTL
is evicted regardless of size pressure, except that entries with
`RefCount > 0` are never evicted.  Each eviction removes the entry from the
Index and the LRU structure and decrements `currentBytes` by its size. -/
def ttlPass (c : Cache) (now : Nat) : Cache :=
  let keep := fun (e : Entry) => decide (0 < e.refCount) || decide (now - e.lastAccess ≤ c.cfg.ttl)
  let kept := c.lru.filter keep
  let evicted := c.lru.filter (fun e => !keep e)
  { c with
    lru := kept
    entries := c.entries.filter (fun k => kept.any (fun e => e.key == k))
    currSizeBytes := c.currSizeBytes - (evicted.map (·.size)).sum }

/-- Modelled from the spec: the walk of the soft-limit pass (section 4.3)
over the LRU list taken from the back (the argument list is the reversed LRU
list, oldest access first): stop as soon as `currentBytes ≤ SoftLimit`, skip
entries with `RefCount > 0`, evict the rest, decrementing the running size by
each evicted size.  Returns the kept entries (still back first) and the new
size. -/
def softPassRev (soft : Int) : List Entry → Int → List Entry × Int
  | [], size => ([], size)
  | e :: rest, size =>
    if size ≤ soft then (e :: rest, size)
    else if 0 < e.refCount then
      (e :: (softPassRev soft rest size).1, (softPassRev soft rest size).2)
    else softPassRev soft rest (size - e.size)

/-- Modelled from the spec: the soft-limit pass of the eviction engine
(section 4.3): if `currentBytes > SoftLimit`, evict least-recently-used
entries (LRU back first), skipping referenced ones, until the size is within
the soft limit or no evictable entry remains; evicted entries leave the Index
as well. -/
def softPass (c : Cache) : Cache :=
  let kept := (softPassRev c.cfg.softLimit c.lru.reverse c.currSizeBytes).1.reverse
  { c with
    lru := kept
    entries := c.entries.filter (fun k => kept.any (fun e => e.key == k))
    currSizeBytes := (softPassRev c.cfg.softLimit c.lru.reverse c.currSizeBytes).2 }

/-- Modelled from the spec: one sweep of the eviction engine (section 4.3),
run by the background timer and synchronously after over-soft-limit
admissions: the TTL pass followed by the soft-limit pass. -/
def sweep (c : Cache) (now : Nat) : Cache :=
  softPass (ttlPass c now)

/-- Modelled from the spec: admission of one entry (section 4.1), after the
context check: fail with DuplicateKey if the key is already in the Index
(existing entry untouched), fail with CapacityExceeded if admitting would
push `currentBytes` over the hard limit (rejected before any state
mutation); otherwise create the entry with `RefCount = 0` and
`LastAccess = now`, insert it at the LRU front, account its size, and if
`currentBytes` now exceeds the soft limit, synchronously run the eviction
pass before returning. -/
def putOne (c : Cache) (now : Nat) (key : String) (size : Int) :
    Option PutErr × Cache :=
  if c.entries.contains key then (some (.alreadyExists key), c)
  else if c.cfg.hardLimit < c.currSizeBytes + size then (some (.tooBig key), c)
  else
    let e : Entry := { key := key, size := size, lastAccess := now, refCount := 0 }
    let c' : Cache := { c with
      lru := e :: c.lru
      entries := key :: c.entries
      currSizeBytes := c.currSizeBytes + size }
    if c.cfg.softLimit < c'.currSizeBytes then (none, sweep c' now) else (none, c')

/-- Modelled from the spec: `Put` (section 4.1): fails with ContextCanceled
when the context is already cancelled, with no state change; otherwise admits
via `putOne`. -/
def put (c : Cache) (cancelled : Bool) (now : Nat) (key : String) (size : Int) :
    Option PutErr × Cache :=
  if cancelled then (some .contextCanceled, c) else putOne c now key size

/-- Modelled from the spec: the loop of `PutMany` (section 4.1): each pair is
processed independently in input order; every failure is collected and
processing continues; entries that succeed stay admitted. -/
def putManyGo (now : Nat) : Cache → List (String × Int) → List PutErr × Cache
  | c, [] => ([], c)
  | c, (k, s) :: rest =>
    match putOne c now k s with
    | (some e, c') => ((putManyGo now c' rest).1.cons e, (putManyGo now c' rest).2)
    | (none, c') => putManyGo now c' rest

/-- Modelled from the spec: `PutMany` (sections 4.1 and 5): the context is
checked once at the start; a cancelled context aborts with ContextCanceled
and no state change. -/
def putMany (c : Cache) (cancelled : Bool) (now : Nat) (pairs : List (String × Int)) :
    List PutErr × Cache :=
  if cancelled then ([.contextCanceled], c) else putManyGo now c pairs

/-- Modelled from the spec: `Get` (section 4.2): a pre-cancelled context
causes an immediate not-found return without touching state; an absent key is
a not-found, not an error; a present key has its `RefCount` incremented, its
`LastAccess` set to now, and is moved to the LRU front, and its handle is
returned. -/
def get (c : Cache) (cancelled : Bool) (now : Nat) (key : String) :
    Option Entry × Cache :=
  if cancelled then (none, c)
  else
    match c.lru.find? (fun e => e.key == key) with
    | none => (none, c)
    | some e =>
      let moved : Entry := { e with refCount := e.refCount + 1, lastAccess := now }
      (some moved, { c with lru := moved :: c.lru.eraseP (fun x => x.key == key) })

/-- Modelled from the spec: `Release` (section 4.2): decrements the
reference count of a present key, silently ignoring an absent key; the count
is guarded so that it never goes negative (sections 3 and 4.2). -/
def release (c : Cache) (key : String) : Cache :=
  { c with
    lru := c.lru.map fun e =>
      if e.key == key then { e with refCount := max 0 (e.refCount - 1) } else e }

/-- Reference count of the entry stored under a key, when present. -/
def refCountOf (c : Cache) (key : String) : Option Int :=
  (c.lru.find? (fun e => e.key == key)).map (·.refCount)

/-- Modelled from the spec: a freshly constructed cache holds nothing. -/
def initCache (cfg : Config) : Cache :=
  { cfg := cfg, lru := [], entries := [], currSizeBytes := 0 }

/-- One invocation of the cache façade (or of the background sweep timer). -/
inductive Op where
  | putOp (cancelled : Bool) (now : Nat) (key : String) (size : Int)
  | putManyOp (cancelled : Bool) (now : Nat) (pairs : List (String × Int))
  | getOp (cancelled : Bool) (now : Nat) (key : String)
  | releaseOp (key : String)
  | sweepOp (now : Nat)

/-- The state reached after one façade invocation (return values dropped). -/
def applyOp (c : Cache) : Op → Cache
  | .putOp cx now k s => (put c cx now k s).2
  | .putManyOp cx now ps => (putMany c cx now ps).2
  | .getOp cx now k => (get c cx now k).2
  | .releaseOp k => release c k
  | .sweepOp now => sweep c now

/-- The state reached from a fresh cache by a sequence of invocations. -/
def run (cfg : Config) (ops : List Op) : Cache :=
  ops.foldl applyOp (initCache cfg)

/-- The reference-count invariant: no resident entry has a negative count. -/
def RefNonneg (c : Cache) : Prop :=
  ∀ e ∈ c.lru, 0 ≤ e.refCount

/-- Configuration of the LRU-eviction, access-order and ref-counter tests:
a TTL too large to ever fire (one hour in milliseconds), `SoftLimit = 10`,
`HardLimit = 20`. -/
def cfgStd : Config :=
  { ttl := 3600000, softLimit := 10, hardLimit := 20 }

/-- Configuration of the error-case tests: `SoftLimit = 100`,
`HardLimit = 200`, TTL too large to fire. -/
def cfgWide : Config :=
  { ttl := 3600000, softLimit := 100, hardLimit := 200 }

/-- Configuration of the TTL-eviction test: `TTL = 100` milliseconds. -/
def cfgTTL : Config :=
  { ttl := 100, softLimit := 10, hardLimit := 20 }

/-- A configuration whose soft limit is below the size of two entries,
exposing the soft-limit eviction pass inside a single `PutMany`. -/
def cfgTight : Config :=
  { ttl := 3600000, softLimit := 3, hardLimit := 100 }

/-- The LRU-eviction scenario: admit `a(4), b(4)`, `Get(a)`, admit `c(4)`
(which pushes `currentBytes` past the soft limit and triggers the eviction
pass). -/
def c1state : Cache :=
  run cfgStd [.putManyOp false 0 [("a", 4), ("b", 4)], .getOp false 1 "a",
    .putOp false 2 "c" 4]

/-- The multi-error scenario: one `PutMany` over `x(2), y(2), x(2), z(250)`
against `SoftLimit = 100`, `HardLimit = 200`. -/
def c2result : List PutErr × Cache :=
  putMany (initCache cfgWide) false 0 [("x", 2), ("y", 2), ("x", 2), ("z", 250)]

/-- One `PutMany` over `a(2), b(2)` against a soft limit of 3: both pairs
are admitted without failure, and the second admission triggers the
soft-limit pass. -/
def c2cex : List PutErr × Cache :=
  putMany (initCache cfgTight) false 0 [("a", 2), ("b", 2)]

/-- The hard-limit scenario: `a(5)` and `b(10)` resident against
`HardLimit = 200`, before an attempted `c(190)`. -/
def c3state : Cache :=
  run cfgWide [.putOp false 0 "a" 5, .putOp false 1 "b" 10]

/-- The access-order scenario right after admitting `a(1), b(2), c(3)`. -/
def c4afterPuts : Cache :=
  run cfgStd [.putManyOp false 0 [("a", 1), ("b", 2), ("c", 3)]]

/-- The access-order scenario after admitting `a(1), b(2), c(3)` and then
`Get(b), Get(c), Get(a)`. -/
def c4stage1 : Cache :=
  run cfgStd [.putManyOp false 0 [("a", 1), ("b", 2), ("c", 3)],
    .getOp false 1 "b", .getOp false 2 "c", .getOp false 3 "a"]

/-- The access-order scenario after additionally `Get(a), Get(a), Get(b)`. -/
def c4stage2 : Cache :=
  run cfgStd [.putManyOp false 0 [("a", 1), ("b", 2), ("c", 3)],
    .getOp false 1 "b", .getOp false 2 "c", .getOp false 3 "a",
    .getOp false 4 "a", .getOp false 5 "a", .getOp false 6 "b"]

/-- The ref-counter scenario base state: one entry `a(5)`. -/
def c5base : Cache :=
  run cfgStd [.putOp false 0 "a" 5]

/-- The ref-counter scenario after one `Get(a)`. -/
def c5one : Cache :=
  (get c5base false 1 "a").2

/-- The ref-counter scenario after two `Get(a)`. -/
def c5two : Cache :=
  (get c5one false 2 "a").2

/-- The TTL scenario: `TTL = 100`; admit `a` at time 0 and `b` at time 75,
then the background sweep runs at time 150. -/
def c6state : Cache :=
  run cfgTTL [.putOp false 0 "a" 5, .putOp false 75 "b" 5, .sweepOp 150]

/-- The duplicate-key scenario: the state holding `key` with size 10. -/
def c8state : Cache :=
  (put (initCache cfgWide) false 0 "key" 10).2

end BlocksCache

namespace Memcached

/-- The value-list/missed-list/error quadruple produced by `fetch` and
`Fetch` (the fields of the Go `result` struct apart from its batch id).
`V` is the stored value type (Go `[]byte`), `E` the backend error type. -/
structure FetchResult (V E : Type) where
  found : List String
  bufs : List V
  missed : List String
  err : Option E
  deriving DecidableEq

/-- The key loop of `fetch`: for each requested key in order, a key present
in the returned item map is appended to `found` with its value appended to
`bufs`, and an absent key is appended to `missed` (the Go loop appends in
key order; the recursion produces the same lists). -/
def fetchLoop (items : String → Option V) : List String → List String × List V × List String
  | [] => ([], [], [])
  | k :: ks =>
    match items k, fetchLoop items ks with
    | some v, (f, b, m) => (k :: f, v :: b, m)
    | none, (f, b, m) => (f, b, k :: m)

/-- `fetch`: one `GetMulti` call; on error the whole requested key list is
returned as missed with empty found keys and buffers, together with the
error; on success the keys are split by presence in the returned items. The
backend is modelled as a function from the requested batch to either an
error or an item lookup. -/
def fetch (getMulti : List String → Except E (String → Option V)) (keys : List String) :
    FetchResult V E :=
  match getMulti keys with
  | .error e => { found := [], bufs := [], missed := keys, err := some e }
  | .ok items =>
    match fetchLoop items keys with
    | (f, b, m) => { found := f, bufs := b, missed := m, err := none }

/-- The recursion behind the dispatch loop, driven by a fuel counter for
structural termination; with `fuel ≥ keys.length` and a batch size of at
least 1 the fuel never runs out.  Each step takes the next `n` keys as one
sub-batch and recurses on the rest (for `n ≥ 1`, dropping `n - 1` of the
tail is dropping `n` of the whole list). -/
def chunksOfAux (n : Nat) : Nat → List String → List (List String)
  | _, [] => []
  | 0, _ :: _ => []
  | fuel + 1, k :: ks => (k :: ks).take n :: chunksOfAux n fuel (ks.drop (n - 1))

/-- The dispatch loop of `fetchKeysBatched`: consecutive sub-batches
`keys[i : min (i+batchSize) len]` for `i = 0, batchSize, 2*batchSize, ...`.
The Go loop never terminates for `batchSize = 0` (and its result-count
computation divides by zero); the model is only used, like the Go batched
path, with a batch size of at least 1. -/
def chunksOf (n : Nat) (keys : List String) : List (List String) :=
  chunksOfAux n keys.length keys

/-- The number of results the main loop of `fetchKeysBatched` reads:
`len(keys) / batchSize`, plus one when the division has a remainder. -/
def numResultsOf (n : Nat) (keys : List String) : Nat :=
  keys.length / n + (if keys.length % n ≠ 0 then 1 else 0)

/-- The empty result (the zero value a never-written slot would hold). -/
def emptyResult : FetchResult V E :=
  { found := [], bufs := [], missed := [], err := none }

/-- The result-slot array after the receive loop: each received result is
stored at the index given by its batch id (`results[result.batchID] =
result`), into `numResults` slots all initially empty. -/
def assemble (pairs : List (Nat × FetchResult V E)) (numResults : Nat) :
    List (Option (FetchResult V E)) :=
  pairs.foldl (fun a p => a.set p.1 (some p.2)) (List.replicate numResults none)

/-- One step of the concatenation loop of `fetchKeysBatched`: the found
keys, buffers and missed keys of a slot are appended to the accumulated
lists, and the error reported so far is replaced by the per-batch error when
that one is non-nil.  A `none` slot is skipped (in Go a nil slot would
fault; with every batch id received exactly once no slot is `none`). -/
def combineStep (acc : FetchResult V E) (s : Option (FetchResult V E)) :
    FetchResult V E :=
  match s with
  | some r =>
    { found := acc.found ++ r.found
      bufs := acc.bufs ++ r.bufs
      missed := acc.missed ++ r.missed
      err := if r.err.isSome then r.err else acc.err }
  | none => acc

/-- The concatenation loop of `fetchKeysBatched`: results are appended in
slot order; the error reported is the last non-nil per-batch error. -/
def combine (slots : List (Option (FetchResult V E))) : FetchResult V E :=
  slots.foldl combineStep emptyResult

/-- `fetchKeysBatched`: the keys are split into consecutive sub-batches of
at most `n` keys, batch `j` is fetched by a worker producing the pair
`(j, fetch keys_j)`, the pairs come back over the result channel in an
arbitrary arrival order, each is stored at the slot named by its batch id,
and the slots are concatenated in slot order.  `arrival` lists the batch ids
in the order their results are received (in the running program, a
permutation of the batch ids). -/
def fetchKeysBatched (getMulti : List String → Except E (String → Option V))
    (n : Nat) (keys : List String) (arrival : List Nat) : FetchResult V E :=
  let batches := chunksOf n keys
  let res := batches.map (fetch getMulti)
  let received := arrival.map fun i => (i, res.getD i emptyResult)
  combine (assemble received (numResultsOf n keys))

/-- A concrete item store holding the keys `k1`, `k2` and `k3`. -/
def storeW : String → Option Nat :=
  fun k => if k == "k1" || k == "k2" || k == "k3" then some 7 else none

/-- A backend whose every `GetMulti` call succeeds against `storeW`. -/
def gmOkW : List String → Except Unit (String → Option Nat) :=
  fun _ => .ok storeW

/-- A backend whose every `GetMulti` call fails. -/
def gmErrW : List String → Except Unit (String → Option Nat) :=
  fun _ => .error ()

/-- A backend that fails exactly on the one-key batch `[k2]` and otherwise
answers from `storeW`: under batching, only some sub-batches hit the error
path. -/
def gmMixedW : List String → Except Unit (String → Option Nat) :=
  fun ks => if ks == ["k2"] then .error () else .ok storeW

end Memcached

namespace BlocksCache

theorem softPassRev_mem {soft : Int} :
    ∀ {l : List Entry} {size : Int} {e : Entry},
      e ∈ (softPassRev soft l size).1 → e ∈ l
  | [], _, _, h => by simp [softPassRev] at h
  | x :: rest, size, e, h => by
    simp only [softPassRev] at h
    by_cases hs : size ≤ soft
    · simpa [hs] using h
    · simp only [hs, if_false] at h
      by_cases hr : 0 < x.refCount
      · simp only [hr, if_true] at h
        rcases List.mem_cons.mp h with h | h
        · exact h ▸ List.mem_cons_self x rest
        · exact List.mem_cons_of_mem x (softPassRev_mem h)
      · simp only [hr, if_false] at h
        exact List.mem_cons_of_mem x (softPassRev_mem h)

theorem softPassRev_mem_of_ref {soft : Int} :
    ∀ {l : List Entry} {size : Int} {e : Entry},
      e ∈ l → 0 < e.refCount → e ∈ (softPassRev soft l size).1
  | [], _, _, h, _ => by simp at h
  | x :: rest, size, e, h, href => by
    simp only [softPassRev]
    by_cases hs : size ≤ soft
    · simpa [hs] using h
    · simp only [hs, if_false]
      rcases List.mem_cons.mp h with h | h
      · subst h
        simp [href]
      · by_cases hr : 0 < x.refCount
        · simp only [hr, if_true]
          exact List.mem_cons_of_mem x (softPassRev_mem_of_ref h href)
        · simp only [hr, if_false]
          exact softPassRev_mem_of_ref h href

theorem softPass_mem {c : Cache} {e : Entry} (h : e ∈ (softPass c).lru) : e ∈ c.lru := by
  simp only [softPass, List.mem_reverse] at h
  exact List.mem_reverse.mp (softPassRev_mem h)

theorem softPass_mem_of_ref {c : Cache} {e : Entry}
    (h : e ∈ c.lru) (href : 0 < e.refCount) : e ∈ (softPass c).lru := by
  simp only [softPass, List.mem_reverse]
  exact softPassRev_mem_of_ref (List.mem_reverse.mpr h) href

theorem ttlPass_mem_iff {c : Cache} {now : Nat} {e : Entry} :
    e ∈ (ttlPass c now).lru ↔
      e ∈ c.lru ∧ (0 < e.refCount ∨ now - e.lastAccess ≤ c.cfg.ttl) := by
  simp only [ttlPass, List.mem_filter, Bool.or_eq_true, decide_eq_true_eq]

theorem ttlPass_mem {c : Cache} {now : Nat} {e : Entry}
    (h : e ∈ (ttlPass c now).lru) : e ∈ c.lru :=
  (ttlPass_mem_iff.mp h).1

theorem sweep_mem {c : Cache} {now : Nat} {e : Entry}
    (h : e ∈ (sweep c now).lru) : e ∈ c.lru :=
  ttlPass_mem (softPass_mem h)

theorem sweep_mem_of_ref {c : Cache} {now : Nat} {e : Entry}
    (h : e ∈ c.lru) (href : 0 < e.refCount) : e ∈ (sweep c now).lru :=
  softPass_mem_of_ref (ttlPass_mem_iff.mpr ⟨h, Or.inl href⟩) href

theorem putOne_fail_frame (c : Cache) (now : Nat) (k : String) (s : Int)
    (e : PutErr) (h : (putOne c now k s).1 = some e) : (putOne c now k s).2 = c := by
  by_cases h1 : c.entries.contains k
  · rw [putOne, if_pos h1]
  · by_cases h2 : c.cfg.hardLimit < c.currSizeBytes + s
    · rw [putOne, if_neg h1, if_pos h2]
    · simp only [putOne] at h
      rw [if_neg h1, if_neg h2] at h
      split at h
      · simp at h
      · simp at h

theorem release_absent (c : Cache) (k : String)
    (h : c.lru.find? (fun e => e.key == k) = none) : release c k = c := by
  have hall : ∀ e ∈ c.lru, ¬((fun e : Entry => e.key == k) e = true) :=
    List.find?_eq_none.mp h
  have hmap : (c.lru.map fun e =>
      if e.key == k then { e with refCount := max 0 (e.refCount - 1) } else e) = c.lru := by
    conv_rhs => rw [← List.map_id c.lru]
    apply List.map_congr_left
    intro e he
    have : (e.key == k) = false := Bool.eq_false_iff.mpr (hall e he)
    simp [this]
  rw [release, hmap]

theorem refNonneg_init (cfg : Config) : RefNonneg (initCache cfg) := by
  intro e he
  simp [initCache] at he

theorem refNonneg_sweep {c : Cache} {now : Nat} (h : RefNonneg c) :
    RefNonneg (sweep c now) :=
  fun e he => h e (sweep_mem he)

theorem refNonneg_putOne {c : Cache} {now : Nat} {k : String} {s : Int}
    (h : RefNonneg c) : RefNonneg (putOne c now k s).2 := by
  simp only [putOne]
  split
  · exact h
  · split
    · exact h
    · split
      · refine refNonneg_sweep fun e he => ?_
        rcases List.mem_cons.mp he with he | he
        · simp [he]
        · exact h e he
      · intro e he
        rcases List.mem_cons.mp he with he | he
        · simp [he]
        · exact h e he

theorem refNonneg_putManyGo {now : Nat} :
    ∀ {pairs : List (String × Int)} {c : Cache},
      RefNonneg c → RefNonneg (putManyGo now c pairs).2
  | [], _, h => h
  | (k, s) :: rest, c, h => by
    simp only [putManyGo]
    rcases heq : putOne c now k s with ⟨err, c'⟩
    have h' : RefNonneg c' := by
      have hpo : RefNonneg (putOne c now k s).2 := refNonneg_putOne h
      rwa [heq] at hpo
    cases err with
    | none => exact refNonneg_putManyGo h'
    | some e => exact refNonneg_putManyGo h'

theorem refNonneg_put {c : Cache} {cx : Bool} {now : Nat} {k : String} {s : Int}
    (h : RefNonneg c) : RefNonneg (put c cx now k s).2 := by
  cases cx with
  | true => exact h
  | false => exact refNonneg_putOne h

theorem refNonneg_putMany {c : Cache} {cx : Bool} {now : Nat}
    {pairs : List (String × Int)} (h : RefNonneg c) :
    RefNonneg (putMany c cx now pairs).2 := by
  cases cx with
  | true => exact h
  | false => exact refNonneg_putManyGo h

theorem refNonneg_get {c : Cache} {cx : Bool} {now : Nat} {k : String}
    (h : RefNonneg c) : RefNonneg (get c cx now k).2 := by
  cases cx with
  | true => exact h
  | false =>
    rcases hfind : c.lru.find? (fun e => e.key == k) with _ | e
    · intro x hx
      simp only [get, hfind] at hx
      exact h x hx
    · intro x hx
      simp only [get, hfind] at hx
      rcases List.mem_cons.mp hx with hx | hx
      · have : 0 ≤ e.refCount := h e (List.mem_of_find?_eq_some hfind)
        subst hx
        simp only []
        omega
      · exact h x ((List.eraseP_sublist c.lru).mem hx)

theorem refNonneg_release {c : Cache} {k : String} (h : RefNonneg c) :
    RefNonneg (release c k) := by
  intro e he
  simp only [release, List.mem_map] at he
  rcases he with ⟨a, ha, rfl⟩
  by_cases hk : a.key == k
  · simp only [hk, if_true]
    exact le_max_left 0 (a.refCount - 1)
  · simp only [hk, if_false]
    exact h a ha

theorem refNonneg_applyOp {c : Cache} (h : RefNonneg c) :
    ∀ op : Op, RefNonneg (applyOp c op)
  | .putOp cx now k s => refNonneg_put h
  | .putManyOp cx now ps => refNonneg_putMany h
  | .getOp cx now k => refNonneg_get h
  | .releaseOp k => refNonneg_release h
  | .sweepOp now => refNonneg_sweep h

theorem refNonneg_foldl :
    ∀ (ops : List Op) (c : Cache), RefNonneg c → RefNonneg (ops.foldl applyOp c)
  | [], _, h => h
  | op :: rest, c, h => refNonneg_foldl rest (applyOp c op) (refNonneg_applyOp h op)

theorem refNonneg_run (cfg : Config) (ops : List Op) : RefNonneg (run cfg ops) :=
  refNonneg_foldl ops (initCache cfg) (refNonneg_init cfg)

end BlocksCache

namespace Memcached

theorem chunksOfAux_flatten {n : Nat} (hn : 1 ≤ n) :
    ∀ (fuel : Nat) (keys : List String), keys.length ≤ fuel →
      (chunksOfAux n fuel keys).flatten = keys
  | _, [], _ => by rw [chunksOfAux]; rfl
  | 0, k :: ks, h => absurd h (by simp)
  | fuel + 1, k :: ks, h => by
    have hlen : (ks.drop (n - 1)).length ≤ fuel := by
      simp only [List.length_drop]
      simp only [List.length_cons] at h
      omega
    rw [chunksOfAux, List.flatten_cons, chunksOfAux_flatten hn fuel _ hlen]
    cases n with
    | zero => exact absurd hn (by omega)
    | succ m =>
      rw [List.take_succ_cons, Nat.succ_sub_one, List.cons_append,
        List.take_append_drop]

theorem chunksOf_flatten {n : Nat} (hn : 1 ≤ n) (keys : List String) :
    (chunksOf n keys).flatten = keys :=
  chunksOfAux_flatten hn keys.length keys le_rfl

theorem chunksOfAux_le {n : Nat} :
    ∀ (fuel : Nat) (keys : List String) {b : List String},
      b ∈ chunksOfAux n fuel keys → b.length ≤ n
  | _, [], b, hb => by rw [chunksOfAux] at hb; simp at hb
  | 0, k :: ks, b, hb => by rw [chunksOfAux] at hb; simp at hb
  | fuel + 1, k :: ks, b, hb => by
    rw [chunksOfAux] at hb
    rcases List.mem_cons.mp hb with hb | hb
    · subst hb
      simpa using List.length_take_le n (k :: ks)
    · exact chunksOfAux_le fuel _ hb

theorem chunksOf_le {n : Nat} {keys : List String} {b : List String}
    (hb : b ∈ chunksOf n keys) : b.length ≤ n :=
  chunksOfAux_le keys.length keys hb

theorem numResultsOf_pos_step {L n : Nat} (hn : 1 ≤ n) (hL : 0 < L) :
    L / n + (if L % n ≠ 0 then 1 else 0) =
      ((L - n) / n + (if (L - n) % n ≠ 0 then 1 else 0)) + 1 := by
  have hn0 : 0 < n := lt_of_lt_of_le Nat.zero_lt_one hn
  rcases le_or_lt L n with hle | hlt
  · have hsub : L - n = 0 := Nat.sub_eq_zero_of_le hle
    rcases eq_or_lt_of_le hle with heq | hlt2
    · subst heq
      simp [Nat.div_self hn0, Nat.mod_self, hsub]
    · have hdiv : L / n = 0 := Nat.div_eq_of_lt hlt2
      have hmod : L % n = L := Nat.mod_eq_of_lt hlt2
      rw [hdiv, hmod, hsub]
      simp only [Nat.zero_div, Nat.zero_mod]
      have : L ≠ 0 := Nat.pos_iff_ne_zero.mp hL
      simp [this]
  · have hsplit : L = (L - n) + n := (Nat.sub_add_cancel (le_of_lt hlt)).symm
    have hdiv : L / n = (L - n) / n + 1 := by
      conv_lhs => rw [hsplit]
      rw [Nat.add_div_right _ hn0]
    have hmod : L % n = (L - n) % n := by
      conv_lhs => rw [hsplit]
      rw [Nat.add_mod_right]
    rw [hdiv, hmod]
    omega

theorem chunksOfAux_length {n : Nat} (hn : 1 ≤ n) :
    ∀ (fuel : Nat) (keys : List String), keys.length ≤ fuel →
      (chunksOfAux n fuel keys).length = numResultsOf n keys
  | _, [], _ => by rw [chunksOfAux]; simp [numResultsOf]
  | 0, k :: ks, h => absurd h (by simp)
  | fuel + 1, k :: ks, h => by
    have hlen : (ks.drop (n - 1)).length ≤ fuel := by
      simp only [List.length_drop]
      simp only [List.length_cons] at h
      omega
    rw [chunksOfAux, List.length_cons, chunksOfAux_length hn fuel _ hlen]
    show numResultsOf n (ks.drop (n - 1)) + 1 = numResultsOf n (k :: ks)
    unfold numResultsOf
    rw [List.length_drop, List.length_cons]
    have hdropped : ks.length - (n - 1) = (ks.length + 1) - n := by omega
    rw [hdropped]
    exact (numResultsOf_pos_step hn (by omega)).symm

theorem length_chunksOf {n : Nat} (hn : 1 ≤ n) (keys : List String) :
    (chunksOf n keys).length = numResultsOf n keys :=
  chunksOfAux_length hn keys.length keys le_rfl

theorem foldl_set_getElem? {R : Type} (res : List R) (d : R) :
    ∀ (pairs : List (Nat × R)) (arr : List (Option R)),
      (∀ p ∈ pairs, p.2 = res.getD p.1 d) →
      (∀ p ∈ pairs, p.1 < arr.length) →
      ∀ j : Nat,
        (pairs.foldl (fun a p => a.set p.1 (some p.2)) arr)[j]? =
          if j ∈ pairs.map Prod.fst then some (some (res.getD j d)) else arr[j]?
  | [], arr, _, _, j => by simp
  | (i, v) :: rest, arr, hval, hlt, j => by
    have hv : v = res.getD i d := hval (i, v) (List.mem_cons_self _ _)
    have hi : i < arr.length := hlt (i, v) (List.mem_cons_self _ _)
    have hval' : ∀ p ∈ rest, p.2 = res.getD p.1 d :=
      fun p hp => hval p (List.mem_cons_of_mem _ hp)
    have hlt' : ∀ p ∈ rest, p.1 < (arr.set i (some v)).length := by
      intro p hp
      rw [List.length_set]
      exact hlt p (List.mem_cons_of_mem _ hp)
    have ih := foldl_set_getElem? res d rest (arr.set i (some v)) hval' hlt' j
    simp only [List.foldl_cons] at ih ⊢
    rw [ih]
    by_cases hjr : j ∈ rest.map Prod.fst
    · simp [hjr]
    · by_cases hij : i = j
      · subst hij
        simp only [hjr, if_false, List.map_cons, List.mem_cons, true_or, if_true]
        rw [List.getElem?_set_eq_of_lt (some v) hi, hv]
      · have hnj : j ∉ ((i, v) :: rest).map Prod.fst := by
          simp only [List.map_cons, List.mem_cons]
          rintro (h | h)
          · exact hij h.symm
          · exact hjr h
        simp only [hjr, if_false, hnj, if_false]
        rw [List.getElem?_set_ne hij]

theorem assemble_eq {res : List (FetchResult V E)} {arrival : List Nat}
    (hperm : arrival.Perm (List.range res.length)) :
    assemble (arrival.map fun i => (i, res.getD i emptyResult)) res.length =
      res.map some := by
  have hmem : ∀ i, i ∈ arrival ↔ i < res.length := by
    intro i
    rw [hperm.mem_iff, List.mem_range]
  apply List.ext_getElem?
  intro j
  rw [assemble]
  rw [foldl_set_getElem? res emptyResult _ _ ?hval ?hlt j]
  case hval =>
    intro p hp
    rcases List.mem_map.mp hp with ⟨i, _, rfl⟩
    rfl
  case hlt =>
    intro p hp
    rcases List.mem_map.mp hp with ⟨i, hi, rfl⟩
    rw [List.length_replicate]
    exact (hmem i).mp hi
  have hfst : (arrival.map fun i => (i, res.getD i emptyResult)).map Prod.fst = arrival := by
    rw [List.map_map]
    exact List.map_id arrival
  rw [hfst]
  by_cases hj : j < res.length
  · have hja : j ∈ arrival := (hmem j).mpr hj
    rw [if_pos hja, List.getElem?_map, List.getElem?_eq_getElem hj]
    simp [List.getD_eq_getElem?_getD, List.getElem?_eq_getElem hj]
  · have hja : j ∉ arrival := fun h => hj ((hmem j).mp h)
    rw [if_neg hja, List.getElem?_map]
    have h1 : res[j]? = none := List.getElem?_eq_none (Nat.le_of_not_lt hj)
    have h2 : (List.replicate res.length (none : Option (FetchResult V E)))[j]? = none := by
      apply List.getElem?_eq_none
      rw [List.length_replicate]
      exact Nat.le_of_not_lt hj
    rw [h1, h2]
    rfl

theorem fetchLoop_eq (items : String → Option V) :
    ∀ keys : List String,
      fetchLoop items keys =
        (keys.filter (fun k => (items k).isSome),
         keys.filterMap items,
         keys.filter (fun k => (items k).isNone)) := by
  intro keys
  induction keys with
  | nil => rfl
  | cons k ks ih =>
    simp only [fetchLoop, ih, List.filter_cons, List.filterMap_cons]
    cases h : items k <;> simp [h]

theorem fetch_eq_of_ok {gm : List String → Except E (String → Option V)}
    {store : String → Option V} (hgm : ∀ ks, gm ks = Except.ok store)
    (keys : List String) :
    fetch gm keys =
      { found := keys.filter (fun k => (store k).isSome)
        bufs := keys.filterMap store
        missed := keys.filter (fun k => (store k).isNone)
        err := none } := by
  rw [fetch, hgm keys]
  simp [fetchLoop_eq]

theorem foldl_combineStep_map_some :
    ∀ (rs : List (FetchResult V E)) (acc : FetchResult V E),
      (∀ r ∈ rs, r.err = none) →
      (rs.map some).foldl combineStep acc =
        { found := acc.found ++ (rs.map FetchResult.found).flatten
          bufs := acc.bufs ++ (rs.map FetchResult.bufs).flatten
          missed := acc.missed ++ (rs.map FetchResult.missed).flatten
          err := acc.err }
  | [], acc, _ => by simp
  | r :: rs, acc, herr => by
    have hr : r.err = none := herr r (List.mem_cons_self _ _)
    have herr' : ∀ x ∈ rs, x.err = none :=
      fun x hx => herr x (List.mem_cons_of_mem _ hx)
    simp only [List.map_cons, List.foldl_cons]
    rw [foldl_combineStep_map_some rs _ herr']
    simp [combineStep, hr, List.append_assoc]

theorem flatten_map_filter (p : String → Bool) :
    ∀ L : List (List String), (L.map (List.filter p)).flatten = L.flatten.filter p
  | [] => rfl
  | b :: L => by
    simp only [List.map_cons, List.flatten_cons, List.filter_append,
      flatten_map_filter p L]

theorem flatten_map_filterMap (f : String → Option V) :
    ∀ L : List (List String), (L.map (List.filterMap f)).flatten = L.flatten.filterMap f
  | [] => rfl
  | b :: L => by
    simp only [List.map_cons, List.flatten_cons, List.filterMap_append,
      flatten_map_filterMap f L]

theorem fetchKeysBatched_eq_fetch {gm : List String → Except E (String → Option V)}
    {store : String → Option V} {n : Nat} {keys : List String} {arrival : List Nat}
    (hn : 1 ≤ n) (hgm : ∀ ks, gm ks = Except.ok store)
    (hperm : arrival.Perm (List.range (numResultsOf n keys))) :
    fetchKeysBatched gm n keys arrival = fetch gm keys := by
  have hlen : ((chunksOf n keys).map (fetch gm)).length = numResultsOf n keys := by
    rw [List.length_map, length_chunksOf hn]
  have hperm' : arrival.Perm (List.range ((chunksOf n keys).map (fetch gm)).length) := by
    rw [hlen]
    exact hperm
  have herr : ∀ r ∈ (chunksOf n keys).map (fetch gm), r.err = none := by
    intro r hr
    rcases List.mem_map.mp hr with ⟨b, _, rfl⟩
    rw [fetch_eq_of_ok hgm]
  have hfound : ((chunksOf n keys).map (fetch gm)).map FetchResult.found
      = (chunksOf n keys).map (List.filter (fun k => (store k).isSome)) := by
    rw [List.map_map]
    apply List.map_congr_left
    intro b _
    simp [fetch_eq_of_ok hgm]
  have hbufs : ((chunksOf n keys).map (fetch gm)).map FetchResult.bufs
      = (chunksOf n keys).map (List.filterMap store) := by
    rw [List.map_map]
    apply List.map_congr_left
    intro b _
    simp [fetch_eq_of_ok hgm]
  have hmissed : ((chunksOf n keys).map (fetch gm)).map FetchResult.missed
      = (chunksOf n keys).map (List.filter (fun k => (store k).isNone)) := by
    rw [List.map_map]
    apply List.map_congr_left
    intro b _
    simp [fetch_eq_of_ok hgm]
  rw [fetchKeysBatched]
  rw [← hlen, assemble_eq hperm', combine,
    foldl_combineStep_map_some _ _ herr,
    hfound, hbufs, hmissed, flatten_map_filter, flatten_map_filterMap,
    flatten_map_filter, chunksOf_flatten hn, fetch_eq_of_ok hgm keys]
  simp [emptyResult]

end Memcached

namespace BlocksCache

/-- C1: Soft-limit eviction never evicts a referenced entry and evicts from
the LRU back first: the general part states that every entry with
`RefCount > 0` survives the soft-limit pass; in the scenario with
`SoftLimit = 10` and `HardLimit = 20`, after admitting `a(4)` and `b(4)`,
performing `Get(a)`, and admitting `c(4)` (which triggers the soft-limit
pass), entry `b` (unreferenced, oldest access) is evicted while `a` and `c`
remain resident, and `currentBytes` equals 8, equal to the sum of the sizes
over all entries remaining in the Index. -/
theorem claim1_soft_limit_eviction :
    (∀ (c : Cache) (e : Entry), e ∈ c.lru → 0 < e.refCount → e ∈ (softPass c).lru) ∧
    (c1state.entries = ["c", "a"] ∧
     "b" ∉ c1state.entries ∧
     c1state.lru.map Entry.key = ["c", "a"] ∧
     c1state.currSizeBytes = 8 ∧
     (c1state.lru.map Entry.size).sum = 8) :=
  ⟨fun _ _ he href => softPass_mem_of_ref he href, by decide⟩

/-- C2 counterexample: the claim that every pair that succeeds in a
`PutMany` remains admitted fails on the code: with `SoftLimit = 3` and
`HardLimit = 100`, `PutMany` over `a(2), b(2)` reports no failure at all,
yet `a` is absent afterwards — the soft-limit eviction pass triggered by
the admission of the sibling `b` evicted it. -/
theorem claim2_counterexample :
    c2cex.1 = [] ∧ c2cex.2.entries = ["b"] ∧ "a" ∉ c2cex.2.entries := by
  decide

/-- C2 (amended): `PutMany` processes each pair independently in input order
and does not abort on the first failure; a pair that fails causes no state
change (general part), and a pair that succeeds is admitted at that point —
though a later sibling admission may still evict it through the soft-limit
pass.  In the scenario with `SoftLimit = 100` and `HardLimit = 200`,
`PutMany` over `x(2), y(2), x(2), z(250)` reports exactly the two failures
duplicate-`x` and hard-limit-`z`, the combined message is
`2 errors: entry already exists: x; entry exceeds hard limit: z`, and `y`
(as well as the first `x`) is admitted. -/
theorem claim2_putmany_independent :
    (∀ (c : Cache) (now : Nat) (k : String) (s : Int) (e : PutErr),
        (putOne c now k s).1 = some e → (putOne c now k s).2 = c) ∧
    (c2result.1 = [.alreadyExists "x", .tooBig "z"] ∧
     renderErrors c2result.1 =
       some "2 errors: entry already exists: x; entry exceeds hard limit: z" ∧
     c2result.2.entries = ["y", "x"] ∧
     c2result.2.currSizeBytes = 4) :=
  ⟨putOne_fail_frame, by decide⟩

/-- C3: a `Put` (with a live context and a fresh key) whose admission would
make `currentBytes` exceed the hard limit fails with the
capacity-exceeded error and leaves the cache state — Index, LRU structure
and `currentBytes` — unchanged; there is no waiting for space. -/
theorem claim3_hard_limit_rejection (c : Cache) (now : Nat) (key : String)
    (size : Int) (hdup : c.entries.contains key = false)
    (hhard : c.cfg.hardLimit < c.currSizeBytes + size) :
    put c false now key size = (some (.tooBig key), c) := by
  rw [put, if_neg Bool.false_ne_true, putOne,
    if_neg (by rw [hdup]; exact Bool.false_ne_true), if_pos hhard]

/-- C3 witness: with `a(5)` and `b(10)` resident against `HardLimit = 200`,
admitting `c(190)` would reach 205 bytes; the `Put` fails with the
capacity error and the state is returned unchanged. -/
theorem claim3_witness :
    c3state.entries.contains "c" = false ∧
    c3state.cfg.hardLimit < c3state.currSizeBytes + 190 ∧
    put c3state false 3 "c" 190 = (some (.tooBig "c"), c3state) :=
  ⟨by decide, by decide,
   claim3_hard_limit_rejection c3state 3 "c" 190 (by decide) (by decide)⟩

/-- C4 counterexample: after admitting `a(1), b(2), c(3)` in order (and
nothing else), the front-to-back LRU order is `c, b, a` — each `Put`
inserts at the front — not `a, c, b` as the claim states. -/
theorem claim4_counterexample :
    c4afterPuts.lru.map Entry.key = ["c", "b", "a"] ∧
    c4afterPuts.lru.map Entry.key ≠ ["a", "c", "b"] := by
  decide

/-- C4 (amended): after admitting `a(1), b(2), c(3)` in order the
front-to-back LRU order is `c, b, a`; after `Get(b), Get(c), Get(a)` it is
`a, c, b` with all reference counts 1; after additional
`Get(a), Get(a), Get(b)` it is `b, a, c` with reference counts `b=2, a=3,
c=1`, because every successful `Get` increments `RefCount`, updates
`LastAccess`, and moves the entry to the LRU front. -/
theorem claim4_lru_reordering :
    c4afterPuts.lru.map Entry.key = ["c", "b", "a"] ∧
    c4stage1.lru.map (fun e => (e.key, e.refCount, e.lastAccess)) =
      [("a", 1, 3), ("c", 1, 2), ("b", 1, 1)] ∧
    c4stage2.lru.map (fun e => (e.key, e.refCount, e.lastAccess)) =
      [("b", 2, 6), ("a", 3, 5), ("c", 1, 2)] := by
  decide

/-- C5 counterexample: a `Release` on a present key does not always
decrement `RefCount` by 1: after `Put(a)` the count is 0, and a `Release(a)`
leaves it at 0 (the count is clamped, never `-1`). -/
theorem claim5_counterexample :
    refCountOf c5base "a" = some 0 ∧
    refCountOf (release c5base "a") "a" = some 0 ∧
    refCountOf (release c5base "a") "a" ≠ some (0 - 1) := by
  decide

/-- C5 (amended): every resident entry's `RefCount` is at least 0 after any
sequence of operations from a fresh cache; `Release` on an absent key is a
silent no-op; and in the symmetric scenario a `Put` creates the entry with
count 0, two `Get` raise it to 2, and two `Release` bring it back to 0 —
a `Release` at count 0 is clamped rather than driving it negative. -/
theorem claim5_refcount_symmetry :
    (∀ (cfg : Config) (ops : List Op), RefNonneg (run cfg ops)) ∧
    (∀ (c : Cache) (k : String),
        c.lru.find? (fun e => e.key == k) = none → release c k = c) ∧
    (refCountOf c5base "a" = some 0 ∧
     refCountOf c5one "a" = some 1 ∧
     refCountOf c5two "a" = some 2 ∧
     refCountOf (release c5two "a") "a" = some 1 ∧
     refCountOf (release (release c5two "a") "a") "a" = some 0) :=
  ⟨refNonneg_run, release_absent, by decide⟩

/-- C6: the TTL pass keeps exactly the entries that are referenced or whose
idle time `now - LastAccess` is within the TTL, independent of size
pressure (general part); in the scenario with `TTL = 100`, after admitting
`a` at time 0 and `b` at time 75, the sweep at time 150 evicts `a` —
`Get(a)` then returns not-found and `a` is gone from both the Index and the
LRU list — while `b` remains resident. -/
theorem claim6_ttl_eviction :
    (∀ (c : Cache) (now : Nat) (e : Entry),
        e ∈ (ttlPass c now).lru ↔
          e ∈ c.lru ∧ (0 < e.refCount ∨ now - e.lastAccess ≤ c.cfg.ttl)) ∧
    ((get c6state false 150 "a").1 = none ∧
     (get c6state false 150 "b").1.isSome = true ∧
     c6state.lru.map Entry.key = ["b"] ∧
     c6state.entries = ["b"]) :=
  ⟨fun _ _ _ => ttlPass_mem_iff, by decide⟩

/-- C7: against an already-cancelled context no cache state is mutated:
`Put` and `PutMany` fail reporting the context-cancelled error (whose
message is `context canceled`) and return the state unchanged, and `Get`
returns not-found immediately with the state unchanged. -/
theorem claim7_cancelled_context (c : Cache) (now : Nat) (key : String)
    (size : Int) (pairs : List (String × Int)) :
    put c true now key size = (some .contextCanceled, c) ∧
    putMany c true now pairs = ([.contextCanceled], c) ∧
    get c true now key = (none, c) ∧
    PutErr.render .contextCanceled = "context canceled" :=
  ⟨rfl, rfl, rfl, rfl⟩

/-- C8: a `Put` (with a live context) for a key already present in the
Index fails with the duplicate-key error and leaves the whole cache state,
in particular the previously stored entry, untouched. -/
theorem claim8_duplicate_rejection (c : Cache) (now : Nat) (key : String)
    (size : Int) (hdup : c.entries.contains key = true) :
    put c false now key size = (some (.alreadyExists key), c) := by
  rw [put, if_neg Bool.false_ne_true, putOne, if_pos hdup]

/-- C8 witness: after `Put(key, v1)` with size 10, a second `Put(key, v2)`
with size 20 fails with the duplicate error and the cache still holds the
size-10 entry. -/
theorem claim8_witness :
    c8state.entries.contains "key" = true ∧
    put c8state false 1 "key" 20 = (some (.alreadyExists "key"), c8state) ∧
    c8state.lru.map (fun e => (e.key, e.size)) = [("key", 10)] :=
  ⟨by decide, claim8_duplicate_rejection c8state 1 "key" 20 (by decide), by decide⟩

end BlocksCache

namespace Memcached

/-- C9 counterexample: the batched fetch does not always equal the
unbatched fetch: with batch size 1 over keys `k1, k2` against a backend
that fails exactly on the sub-batch `[k2]`, the batched fetch finds `k1`
and misses `k2`, while the single unbatched call succeeds and finds both —
so the two results differ. -/
theorem claim9_counterexample :
    fetchKeysBatched gmMixedW 1 ["k1", "k2"] [0, 1] ≠ fetch gmMixedW ["k1", "k2"] ∧
    (fetchKeysBatched gmMixedW 1 ["k1", "k2"] [0, 1]).found = ["k1"] ∧
    (fetch gmMixedW ["k1", "k2"]).found = ["k1", "k2"] := by
  decide

/-- C9 (amended): for every key list, every batch size of at least 1 and
every arrival order of the batch results, provided every `GetMulti` call
succeeds against one fixed item store, the batched fetch splits the keys
into consecutive sub-batches of at most `BatchSize` keys whose
concatenation is the original key list, reassembles the per-batch results
indexed by their batch id, and its concatenated (found, bufs, missed)
results equal those of a single unbatched fetch over the whole key list,
regardless of the order in which the batch results arrive. -/
theorem claim9_batched_refines_unbatched {V E : Type}
    (gm : List String → Except E (String → Option V))
    (store : String → Option V) (n : Nat) (keys : List String)
    (arrival : List Nat) (hn : 1 ≤ n)
    (hgm : ∀ ks, gm ks = Except.ok store)
    (hperm : arrival.Perm (List.range (numResultsOf n keys))) :
    (∀ b ∈ chunksOf n keys, b.length ≤ n) ∧
    (chunksOf n keys).flatten = keys ∧
    fetchKeysBatched gm n keys arrival = fetch gm keys :=
  ⟨fun _ hb => chunksOf_le hb, chunksOf_flatten hn keys,
   fetchKeysBatched_eq_fetch hn hgm hperm⟩

/-- C9 witness: four keys in batches of two against a uniformly successful
backend, with the second batch result arriving before the first. -/
theorem claim9_witness :
    1 ≤ 2 ∧ (∀ ks, gmOkW ks = Except.ok storeW) ∧
    [1, 0].Perm (List.range (numResultsOf 2 ["k1", "k2", "k3", "k9"])) ∧
    ((∀ b ∈ chunksOf 2 ["k1", "k2", "k3", "k9"], b.length ≤ 2) ∧
     (chunksOf 2 ["k1", "k2", "k3", "k9"]).flatten = ["k1", "k2", "k3", "k9"] ∧
     fetchKeysBatched gmOkW 2 ["k1", "k2", "k3", "k9"] [1, 0] =
       fetch gmOkW ["k1", "k2", "k3", "k9"]) :=
  ⟨by decide, fun _ => rfl, by decide,
   claim9_batched_refines_unbatched gmOkW storeW 2 ["k1", "k2", "k3", "k9"]
     [1, 0] (by decide) (fun _ => rfl) (by decide)⟩

/-- C10: when the underlying `GetMulti` call fails, `fetch` returns the
entire requested key list as missed, with empty found keys and empty
buffers, together with the error — no key is reported as found on the
error path. -/
theorem claim10_fetch_error_path {V E : Type}
    (gm : List String → Except E (String → Option V)) (keys : List String)
    (e : E) (herr : gm keys = Except.error e) :
    fetch gm keys = { found := [], bufs := [], missed := keys, err := some e } := by
  rw [fetch, herr]

/-- C10 witness: a backend that always fails, fetched over two keys. -/
theorem claim10_witness :
    gmErrW ["k1", "k2"] = Except.error () ∧
    fetch gmErrW ["k1", "k2"] =
      { found := [], bufs := [], missed := ["k1", "k2"], err := some () } :=
  ⟨rfl, claim10_fetch_error_path gmErrW ["k1", "k2"] () rfl⟩

end Memcached
